import Mathlib

/-!
Verification of the market-order utilities of `src/util/orders.ts`:
the greedy fill allocator `buildMarketOrders`, the fill-plan valuator
`sumTakerAssetFillableOrders`, the protocol-fee estimator
`calculateWorstCaseProtocolFee` and the auction classifier `isDutchAuction`.

The library's arbitrary-precision `BigNumber` values are modelled as
rationals (`ℚ`); asset-data encodings and addresses as natural numbers.
-/

namespace Orders

/-- `OrderSide` from `util/types` as used by `buildMarketOrders` and
`sumTakerAssetFillableOrders`. -/
inductive OrderSide where
  | Buy
  | Sell
  deriving DecidableEq, Repr

/-- The fields of a (signed) 0x order that the four routines under
verification read: maker/taker asset encodings (for the token-decimal
lookups), maker/taker asset amounts (for the Sell-side notional price),
plus the expiration and the signature standing for the remaining payload. -/
structure SignedOrder where
  makerAssetData : Nat
  takerAssetData : Nat
  makerAssetAmount : ℚ
  takerAssetAmount : ℚ
  expirationTimeSeconds : ℚ
  signature : Nat
  deriving DecidableEq, Repr

/-- `UIOrder` from `util/types`: a candidate wrapping a raw order with its
derived decimal `price`, its total `size` in base units, and the optionally
present `filled` amount already consumed elsewhere. -/
structure UIOrder where
  rawOrder : SignedOrder
  price : ℚ
  size : ℚ
  filled : Option ℚ
  deriving DecidableEq, Repr

/-- The argument record of `buildMarketOrders`. -/
structure BuildMarketOrderParams where
  amount : ℚ
  orders : List UIOrder
  deriving DecidableEq, Repr

/-- Modelled from the spec: the constant `ZERO` of `common/constants`
(a file not under `src/`), the additive-identity `BigNumber`. -/
def ZERO : ℚ := 0

/-- Modelled from the spec: `PROTOCOL_FEE_MULTIPLIER` of `common/constants`
(a file not under `src/`), the fixed per-order protocol-fee multiplier;
the 0x v3 protocol fixes it at 150000. -/
def PROTOCOL_FEE_MULTIPLIER : Nat := 150000

/-- Modelled from the spec: `tokenAmountInUnitsToBigNumber` of `util/tokens`
(a file not under `src/`): `toDecimalUnits(rawAmount, decimals)`, the exact
conversion of a raw base-unit amount into its human-unit decimal
representation. -/
def tokenAmountInUnitsToBigNumber (amount : ℚ) (decimals : Nat) : ℚ :=
  amount / 10 ^ decimals

/-- Modelled from the spec: `unitsInTokenAmount` of `util/tokens`
(a file not under `src/`): `toBaseUnits(decimalAmount, decimals)`, the exact
conversion of a decimal human-unit amount into base units. -/
def unitsInTokenAmount (units : ℚ) (decimals : Nat) : ℚ :=
  units * 10 ^ decimals

/-- The `available` computation in the loop body of `buildMarketOrders`
(`orders.ts` lines 134-137): `order.size`, replaced by
`order.size.minus(order.filled)` when `filled` is present (a `BigNumber`
object is always truthy, so the JavaScript test is a presence test). -/
def availableOf (order : UIOrder) : ℚ :=
  match order.filled with
  | some f => order.size - f
  | none => order.size

/-- The comparator closure of `orders.sort` (`orders.ts` lines 119-125),
rendered as the boolean "may come first" relation: `sortLe side a b` holds
iff the comparator returns a non-positive value on `(a, b)`, i.e. ascending
price for Buy and descending price for Sell. -/
def sortLe (side : OrderSide) (a b : UIOrder) : Bool :=
  match side with
  | OrderSide.Buy => a.price ≤ b.price
  | OrderSide.Sell => b.price ≤ a.price

/-- Insertion of `a` into `l`: `a` is placed before the first element `b`
with `le a b`. Elements skipped on the way satisfy `¬ le a b`, so among
equal keys a newly inserted (earlier-in-input) element lands first. -/
def insort {α : Type} (le : α → α → Bool) (a : α) : List α → List α
  | [] => [a]
  | b :: l => if le a b then a :: b :: l else b :: insort le a l

/-- Stable sort by the boolean relation `le`, by right-to-left insertion;
for a comparator that is a total preorder this is the unique stable sorted
permutation, which is exactly what ECMAScript guarantees for
`Array.prototype.sort` with a consistent comparator. -/
def stableSortBy {α : Type} (le : α → α → Bool) : List α → List α
  | [] => []
  | a :: l => insort le a (stableSortBy le l)

/-- `orders.sort((a, b) => ...)` of `buildMarketOrders` (lines 119-125):
the stable sort of the candidates by the side's comparator. Note that
`Array.prototype.sort` performs this sort in place on the caller's array. -/
def sortOrders (side : OrderSide) (orders : List UIOrder) : List UIOrder :=
  stableSortBy (sortLe side) orders

/-- The fill loop of `buildMarketOrders` (lines 127-153): starting from the
accumulator `filledAmount`, visit candidates while `filledAmount < amount`,
pushing each visited candidate's raw order and its recorded amount — the
remaining need `amount - filledAmount` when the candidate's availability
overshoots, otherwise its full availability — and for Buy immediately
overwrite the just-pushed amount with the maker→taker unit conversion at the
candidate's price. Returns `(ordersToFill, amounts, final filledAmount)`.
The token-decimal lookup `getKnownTokens().getTokenByAssetData(·).decimals`
is passed in as `decimalsOf`. -/
def marketLoop (side : OrderSide) (decimalsOf : Nat → Nat) (amount : ℚ) :
    ℚ → List UIOrder → List SignedOrder × List ℚ × ℚ
  | filledAmount, [] => ([], [], filledAmount)
  | filledAmount, order :: rest =>
    if filledAmount < amount then
      let available := availableOf order
      let fill : ℚ :=
        if filledAmount + available > amount then amount - filledAmount else available
      let newFilled : ℚ :=
        if filledAmount + available > amount then amount else filledAmount + available
      let recorded : ℚ :=
        if side = OrderSide.Buy then
          let makerTokenDecimals := decimalsOf order.rawOrder.makerAssetData
          let takerTokenDecimals := decimalsOf order.rawOrder.takerAssetData
          let buyAmount := tokenAmountInUnitsToBigNumber fill makerTokenDecimals
          unitsInTokenAmount (buyAmount * order.price) takerTokenDecimals
        else fill
      let tail := marketLoop side decimalsOf amount newFilled rest
      (order.rawOrder :: tail.1, recorded :: tail.2.1, tail.2.2)
    else ([], [], filledAmount)

/-- `buildMarketOrders` (`orders.ts` lines 112-159): sort the candidates by
the side's comparator, run the fill loop from `ZERO`, set
`canBeFilled := filledAmount.eq(amount)`, and round every recorded amount
toward positive infinity (`BigNumber.ROUND_CEIL`). -/
def buildMarketOrders (params : BuildMarketOrderParams) (side : OrderSide)
    (decimalsOf : Nat → Nat) : List SignedOrder × List ℚ × Bool :=
  let sortedOrders := sortOrders side params.orders
  let res := marketLoop side decimalsOf params.amount ZERO sortedOrders
  let roundedAmounts := res.2.1.map (fun a => ((⌈a⌉ : ℤ) : ℚ))
  (res.1, roundedAmounts, decide (res.2.2 = params.amount))

/-- The contents of the caller's `orders` array after `buildMarketOrders`
returns: `orders.sort(...)` (line 119) is `Array.prototype.sort`, which
sorts the caller's array in place, so the caller observes the sorted
sequence. -/
def buildMarketOrdersFinalOrders (params : BuildMarketOrderParams)
    (side : OrderSide) : List UIOrder :=
  sortOrders side params.orders

/-- Spec-level view of the fill loop (spec §4.1 steps 2-3): the per-candidate
base-unit fill amounts as recorded before the Buy-side unit conversion and
before ceiling rounding, each paired with its candidate, together with the
final `filledAmount`. -/
def baseFills (amount : ℚ) : ℚ → List UIOrder → List (UIOrder × ℚ) × ℚ
  | filledAmount, [] => ([], filledAmount)
  | filledAmount, order :: rest =>
    if filledAmount < amount then
      let available := availableOf order
      let fill : ℚ :=
        if filledAmount + available > amount then amount - filledAmount else available
      let newFilled : ℚ :=
        if filledAmount + available > amount then amount else filledAmount + available
      let tail := baseFills amount newFilled rest
      ((order, fill) :: tail.1, tail.2)
    else ([], filledAmount)

/-- The Buy-side per-order unit conversion of `buildMarketOrders`
(lines 146-152), as the spec states it:
`toBaseUnits(toDecimalUnits(fill, makerTokenDecimals) × price,
takerTokenDecimals)` with the decimals looked up from the order's maker and
taker asset encodings. -/
def buyConvert (decimalsOf : Nat → Nat) (order : UIOrder) (fill : ℚ) : ℚ :=
  unitsInTokenAmount
    (tokenAmountInUnitsToBigNumber fill (decimalsOf order.rawOrder.makerAssetData) * order.price)
    (decimalsOf order.rawOrder.takerAssetData)

/-- `b` offers a strictly better execution price than `a` for the requester:
cheaper for Buy, higher for Sell. -/
def strictlyBetterPrice (side : OrderSide) (b a : UIOrder) : Prop :=
  match side with
  | OrderSide.Buy => b.price < a.price
  | OrderSide.Sell => a.price < b.price

/-- `sumTakerAssetFillableOrders` (`orders.ts` lines 161-177). The `throw`
on mismatched lengths is modelled with `Except.error`; the reduce over
`ordersToFill` reads `amounts[index]`, modelled as `amounts.getD index 0`
(the length guard makes the default unreachable). The Sell-side
`makerAssetAmount.div(takerAssetAmount)` is modelled with total field
division on `ℚ`; the Buy branch of the conditional never evaluates it,
mirroring the short-circuiting JavaScript conditional expression. -/
def sumTakerAssetFillableOrders (side : OrderSide) (ordersToFill : List SignedOrder)
    (amounts : List ℚ) : Except String ℚ :=
  if ordersToFill.length ≠ amounts.length then
    Except.error "ordersToFill and amount array lengths must be the same."
  else if ordersToFill.length = 0 then
    Except.ok ZERO
  else
    Except.ok (ordersToFill.enum.foldl
      (fun sum p =>
        let price : ℚ :=
          if side = OrderSide.Buy then 1
          else p.2.makerAssetAmount / p.2.takerAssetAmount
        sum + amounts.getD p.1 0 * price)
      ZERO)

/-- `calculateWorstCaseProtocolFee` (`orders.ts` lines 179-182):
`new BigNumber(orders.length * PROTOCOL_FEE_MULTIPLIER).times(gasPrice)`.
The inner product is a JavaScript number product of two integers; it is
exact for every representable array length (below `2^32`, the product stays
below `2^53`), so it is modelled exactly. -/
def calculateWorstCaseProtocolFee (orders : List SignedOrder) (gasPrice : ℚ) : ℚ :=
  ((orders.length * PROTOCOL_FEE_MULTIPLIER : Nat) : ℚ) * gasPrice

/-- `isDutchAuction` (`orders.ts` lines 184-186): constantly `false`. -/
def isDutchAuction (_order : SignedOrder) : Bool :=
  false

/-- A concrete signed order, for concrete instantiations. -/
def sampleRawA : SignedOrder :=
  ⟨1, 2, 100, 50, 1000, 7⟩

/-- A second concrete signed order. -/
def sampleRawB : SignedOrder :=
  ⟨3, 4, 80, 40, 1000, 8⟩

/-- A concrete signed order whose `takerAssetAmount` is zero. -/
def sampleRawZeroTaker : SignedOrder :=
  ⟨5, 6, 9, 0, 1000, 9⟩

/-- A cheap candidate: price 1, size 40, nothing filled. -/
def sampleCheap : UIOrder :=
  ⟨sampleRawA, 1, 40, none⟩

/-- A dear candidate: price 2, size 30, of which 10 already filled. -/
def sampleDear : UIOrder :=
  ⟨sampleRawB, 2, 30, some 10⟩

/-- A small cheap candidate: price 1, size 10, nothing filled. -/
def sampleSmall : UIOrder :=
  ⟨sampleRawA, 1, 10, none⟩

/-- Concrete allocator parameters listing the dear candidate first. -/
def sampleParams : BuildMarketOrderParams :=
  ⟨50, [sampleDear, sampleCheap]⟩

/-- Concrete allocator parameters whose total availability (20 + 10 = 30)
falls short of the requested amount 50. -/
def sampleParamsShort : BuildMarketOrderParams :=
  ⟨50, [sampleDear, sampleSmall]⟩

/-- A constant token-decimal lookup for concrete instantiations. -/
def sampleDecimals : Nat → Nat :=
  fun _ => 2

/-! ### Properties of the stable sort -/

theorem insort_perm {α : Type} (le : α → α → Bool) (a : α) :
    ∀ l : List α, (insort le a l).Perm (a :: l)
  | [] => List.Perm.refl _
  | b :: l => by
    by_cases h : le a b
    · simp [insort, h]
    · simp only [insort, h, if_false]
      exact ((insort_perm le a l).cons b).trans (List.Perm.swap a b l)

theorem mem_insort {α : Type} {le : α → α → Bool} {a x : α} {l : List α} :
    x ∈ insort le a l ↔ x = a ∨ x ∈ l := by
  rw [(insort_perm le a l).mem_iff, List.mem_cons]

theorem insort_pairwise {α : Type} {le : α → α → Bool}
    (total : ∀ a b, le a b || le b a)
    (trans : ∀ a b c, le a b = true → le b c = true → le a c = true)
    (a : α) : ∀ {l : List α}, l.Pairwise (fun x y => le x y = true) →
      (insort le a l).Pairwise (fun x y => le x y = true)
  | [], _ => by simp [insort]
  | b :: l, h => by
    rcases List.pairwise_cons.mp h with ⟨hb, hl⟩
    by_cases hab : le a b
    · simp only [insort, hab, if_true]
      refine List.pairwise_cons.mpr ⟨?_, h⟩
      intro x hx
      rcases List.mem_cons.mp hx with rfl | hx
      · exact hab
      · exact trans a b x hab (hb x hx)
    · simp only [insort, hab, if_false]
      refine List.pairwise_cons.mpr ⟨?_, insort_pairwise total trans a hl⟩
      intro x hx
      rcases mem_insort.mp hx with hxa | hx
      · rw [hxa]
        have hfalse : le a b = false := by
          cases hv : le a b with
          | false => rfl
          | true => exact absurd hv hab
        have htot := total a b
        rw [hfalse] at htot
        simpa using htot
      · exact hb x hx

theorem stableSortBy_perm {α : Type} (le : α → α → Bool) :
    ∀ l : List α, (stableSortBy le l).Perm l
  | [] => List.Perm.refl _
  | a :: l =>
    (insort_perm le a (stableSortBy le l)).trans ((stableSortBy_perm le l).cons a)

theorem stableSortBy_pairwise {α : Type} {le : α → α → Bool}
    (total : ∀ a b, le a b || le b a)
    (trans : ∀ a b c, le a b = true → le b c = true → le a c = true) :
    ∀ l : List α, (stableSortBy le l).Pairwise (fun x y => le x y = true)
  | [] => by simp [stableSortBy]
  | a :: l => insort_pairwise total trans a (stableSortBy_pairwise total trans l)

theorem filter_insort_of_pos {α : Type} {le : α → α → Bool} {q : α → Bool} {a : α}
    (hq : q a = true) (h : ∀ b, q b = true → le a b = true) :
    ∀ l : List α, (insort le a l).filter q = a :: l.filter q
  | [] => by simp [insort, hq]
  | b :: l => by
    by_cases hab : le a b
    · simp [insort, hab, List.filter_cons, hq]
    · have hqb : q b = false := by
        cases hv : q b with
        | false => rfl
        | true => exact absurd (h b hv) hab
      simp [insort, hab, List.filter_cons, hqb, filter_insort_of_pos hq h l]

theorem filter_insort_of_neg {α : Type} {le : α → α → Bool} {q : α → Bool} {a : α}
    (hq : q a = false) :
    ∀ l : List α, (insort le a l).filter q = l.filter q
  | [] => by simp [insort, hq]
  | b :: l => by
    by_cases hab : le a b
    · simp [insort, hab, List.filter_cons, hq]
    · simp [insort, hab, List.filter_cons, filter_insort_of_neg hq l]

theorem filter_stableSortBy {α : Type} {le : α → α → Bool} {q : α → Bool}
    (h : ∀ a b, q a = true → q b = true → le a b = true) :
    ∀ l : List α, (stableSortBy le l).filter q = l.filter q
  | [] => rfl
  | a :: l => by
    cases ha : q a with
    | true =>
      rw [stableSortBy, filter_insort_of_pos ha (fun b hb => h a b ha hb),
        filter_stableSortBy h l, List.filter_cons_of_pos ha]
    | false =>
      rw [stableSortBy, filter_insort_of_neg ha, filter_stableSortBy h l,
        List.filter_cons_of_neg (by simp [ha])]

theorem sortLe_total (side : OrderSide) (a b : UIOrder) :
    sortLe side a b || sortLe side b a := by
  cases side <;> simp [sortLe] <;> exact le_total _ _

theorem sortLe_trans (side : OrderSide) (a b c : UIOrder) :
    sortLe side a b = true → sortLe side b c = true → sortLe side a c = true := by
  cases side <;> simp only [sortLe, decide_eq_true_eq]
  · exact fun h1 h2 => le_trans h1 h2
  · exact fun h1 h2 => le_trans h2 h1

theorem sortLe_of_price_eq {side : OrderSide} {a b : UIOrder}
    (h : a.price = b.price) : sortLe side a b = true := by
  cases side <;> simp [sortLe, h]

theorem sortOrders_perm (side : OrderSide) (orders : List UIOrder) :
    (sortOrders side orders).Perm orders :=
  stableSortBy_perm (sortLe side) orders

theorem sortOrders_pairwise (side : OrderSide) (orders : List UIOrder) :
    (sortOrders side orders).Pairwise (fun a b => sortLe side a b = true) :=
  stableSortBy_pairwise (sortLe_total side) (sortLe_trans side) orders

theorem sortOrders_filter_price (side : OrderSide) (orders : List UIOrder) (p : ℚ) :
    (sortOrders side orders).filter (fun o => decide (o.price = p)) =
      orders.filter (fun o => decide (o.price = p)) := by
  refine filter_stableSortBy ?_ orders
  intro a b ha hb
  have ha' : a.price = p := by simpa using ha
  have hb' : b.price = p := by simpa using hb
  exact sortLe_of_price_eq (ha'.trans hb'.symm)

/-! ### Properties of the fill loop -/

theorem marketLoop_eq_baseFills (side : OrderSide) (decimalsOf : Nat → Nat) (amount : ℚ) :
    ∀ (f : ℚ) (os : List UIOrder),
      marketLoop side decimalsOf amount f os =
        ((baseFills amount f os).1.map (fun p => p.1.rawOrder),
         (baseFills amount f os).1.map
           (fun p => if side = OrderSide.Buy then buyConvert decimalsOf p.1 p.2 else p.2),
         (baseFills amount f os).2)
  | f, [] => by simp [marketLoop, baseFills]
  | f, order :: rest => by
    rw [marketLoop, baseFills]
    by_cases h : f < amount
    · simp only [h, if_true]
      rw [marketLoop_eq_baseFills side decimalsOf amount _ rest]
      by_cases hside : side = OrderSide.Buy
      · simp [hside, buyConvert]
      · simp [hside]
    · simp [h]

theorem marketLoop_of_not_lt (side : OrderSide) (decimalsOf : Nat → Nat)
    {amount f : ℚ} (h : ¬ f < amount) (os : List UIOrder) :
    marketLoop side decimalsOf amount f os = ([], [], f) := by
  cases os with
  | nil => simp [marketLoop]
  | cons o rest =>
    rw [marketLoop]
    simp [h]

theorem baseFills_snd_eq (amount : ℚ) :
    ∀ (f : ℚ) (os : List UIOrder),
      (baseFills amount f os).2 = f + ((baseFills amount f os).1.map Prod.snd).sum
  | f, [] => by simp [baseFills]
  | f, order :: rest => by
    rw [baseFills]
    by_cases h : f < amount
    · simp only [h, if_true, List.map_cons, List.sum_cons]
      rw [baseFills_snd_eq amount _ rest]
      by_cases h2 : f + availableOf order > amount <;> simp [h2] <;> ring
    · simp [h]

theorem baseFills_snd_le (amount : ℚ) :
    ∀ (f : ℚ) (os : List UIOrder), f ≤ amount → (baseFills amount f os).2 ≤ amount
  | f, [], hf => by simpa [baseFills] using hf
  | f, order :: rest, hf => by
    rw [baseFills]
    by_cases h : f < amount
    · simp only [h, if_true]
      refine baseFills_snd_le amount _ rest ?_
      by_cases h2 : f + availableOf order > amount
      · simp [h2]
      · simp only [h2, if_false]
        exact le_of_not_lt h2
    · simpa [h] using hf

theorem baseFills_fst_take (amount : ℚ) :
    ∀ (f : ℚ) (os : List UIOrder), ∃ k, (baseFills amount f os).1.map Prod.fst = os.take k
  | f, [] => ⟨0, by simp [baseFills]⟩
  | f, order :: rest => by
    rw [baseFills]
    by_cases h : f < amount
    · obtain ⟨k, hk⟩ := baseFills_fst_take amount
        (if f + availableOf order > amount then amount else f + availableOf order) rest
      exact ⟨k + 1, by simp [h, hk]⟩
    · exact ⟨0, by simp [h]⟩

theorem baseFills_exhaust (amount : ℚ) :
    ∀ (f : ℚ) (os : List UIOrder), (∀ o ∈ os, 0 ≤ availableOf o) →
      f + (os.map availableOf).sum < amount →
      (baseFills amount f os).1 = os.map (fun o => (o, availableOf o)) ∧
        (baseFills amount f os).2 = f + (os.map availableOf).sum
  | f, [], _, _ => by simp [baseFills]
  | f, order :: rest, hpos, hsum => by
    have hrest : ∀ o ∈ rest, 0 ≤ availableOf o :=
      fun o ho => hpos o (List.mem_cons_of_mem _ ho)
    have hav : 0 ≤ availableOf order := hpos order (List.mem_cons_self _ _)
    have hrestsum : 0 ≤ (rest.map availableOf).sum := by
      refine List.sum_nonneg ?_
      intro x hx
      obtain ⟨o, ho, rfl⟩ := List.mem_map.mp hx
      exact hrest o ho
    have hsum0 : f + (availableOf order + (rest.map availableOf).sum) < amount := by
      simpa using hsum
    have hsum' : (f + availableOf order) + (rest.map availableOf).sum < amount := by
      linarith
    have hlt : f < amount := by linarith
    have h2 : ¬ (f + availableOf order > amount) := by
      simp only [gt_iff_lt, not_lt]
      linarith
    rw [baseFills]
    simp only [hlt, if_true, h2, if_false]
    obtain ⟨hfst, hsnd⟩ := baseFills_exhaust amount (f + availableOf order) rest hrest hsum'
    constructor
    · simp [hfst]
    · simp only [hsnd, List.map_cons, List.sum_cons]
      ring

theorem buildMarketOrders_eq (params : BuildMarketOrderParams) (side : OrderSide)
    (decimalsOf : Nat → Nat) :
    buildMarketOrders params side decimalsOf =
      ((baseFills params.amount ZERO (sortOrders side params.orders)).1.map
         (fun p => p.1.rawOrder),
       (baseFills params.amount ZERO (sortOrders side params.orders)).1.map
         (fun p =>
           ((⌈if side = OrderSide.Buy then buyConvert decimalsOf p.1 p.2 else p.2⌉ : ℤ) : ℚ)),
       decide ((baseFills params.amount ZERO (sortOrders side params.orders)).2 =
         params.amount)) := by
  simp only [buildMarketOrders]
  rw [marketLoop_eq_baseFills]
  simp [List.map_map, Function.comp]

theorem buildMarketOrders_fullyFilled (params : BuildMarketOrderParams)
    (side : OrderSide) (decimalsOf : Nat → Nat) :
    (buildMarketOrders params side decimalsOf).2.2 =
      decide ((baseFills params.amount ZERO (sortOrders side params.orders)).2 =
        params.amount) := by
  rw [buildMarketOrders_eq]

theorem foldl_add_map {α : Type} (g : α → ℚ) :
    ∀ (l : List α) (s : ℚ), l.foldl (fun acc x => acc + g x) s = s + (l.map g).sum
  | [], s => by simp
  | x :: l, s => by
    simp only [List.foldl_cons, List.map_cons, List.sum_cons]
    rw [foldl_add_map g l (s + g x)]
    ring

theorem range_map_getD :
    ∀ l : List ℚ, (List.range l.length).map (fun i => l.getD i 0) = l
  | [] => rfl
  | a :: l => by
    rw [List.length_cons, List.range_succ_eq_map, List.map_cons, List.map_map]
    simp only [List.getD_cons_zero]
    congr 1
    have hfun : ((fun i => (a :: l).getD i 0) ∘ Nat.succ) = fun i => l.getD i 0 := by
      funext i
      simp [Function.comp, List.getD_cons_succ]
    rw [hfun, range_map_getD l]

/-! ### The claims -/

/-- C1: for every side, every targetAmount ≥ 0 and every candidate list, the
fill amounts recorded before the Buy-side unit conversion and before ceiling
rounding sum to at most `targetAmount`, and the sum equals `targetAmount`
exactly whenever `buildMarketOrders` returns `canBeFilled = true`. -/
theorem buildMarketOrders_conservation (side : OrderSide)
    (params : BuildMarketOrderParams) (decimalsOf : Nat → Nat)
    (h : 0 ≤ params.amount) :
    ((baseFills params.amount ZERO (sortOrders side params.orders)).1.map Prod.snd).sum ≤
        params.amount ∧
      ((buildMarketOrders params side decimalsOf).2.2 = true →
        ((baseFills params.amount ZERO (sortOrders side params.orders)).1.map Prod.snd).sum =
          params.amount) := by
  have hsum := baseFills_snd_eq params.amount ZERO (sortOrders side params.orders)
  have hle := baseFills_snd_le params.amount ZERO (sortOrders side params.orders)
    (by simpa [ZERO] using h)
  constructor
  · rw [hsum] at hle
    simpa [ZERO] using hle
  · intro hfull
    rw [buildMarketOrders_fullyFilled] at hfull
    have heq := of_decide_eq_true hfull
    rw [hsum] at heq
    simpa [ZERO] using heq

/-- C1 witness: the conservation theorem instantiated at a concrete Sell-side
request of 50 base units against candidates offering 20 and 40. -/
theorem buildMarketOrders_conservation_witness :
    0 ≤ sampleParams.amount ∧
      (((baseFills sampleParams.amount ZERO
            (sortOrders OrderSide.Sell sampleParams.orders)).1.map Prod.snd).sum ≤
          sampleParams.amount ∧
        ((buildMarketOrders sampleParams OrderSide.Sell sampleDecimals).2.2 = true →
          ((baseFills sampleParams.amount ZERO
              (sortOrders OrderSide.Sell sampleParams.orders)).1.map Prod.snd).sum =
            sampleParams.amount)) :=
  ⟨by decide,
   buildMarketOrders_conservation OrderSide.Sell sampleParams sampleDecimals (by decide)⟩

/-- C2: the orders chosen by `buildMarketOrders` are exactly the raw orders of
an initial segment of the price-sorted candidate list (ascending for Buy,
descending for Sell, encoded by `sortLe`), the sort preserves the relative
input order among equal-price candidates, and no skipped candidate has a
strictly better price than any selected one. -/
theorem buildMarketOrders_best_price_first (side : OrderSide)
    (params : BuildMarketOrderParams) (decimalsOf : Nat → Nat) :
    ∃ k,
      (buildMarketOrders params side decimalsOf).1 =
          ((sortOrders side params.orders).take k).map (fun o => o.rawOrder) ∧
        (sortOrders side params.orders).Pairwise (fun a b => sortLe side a b = true) ∧
        (∀ p : ℚ,
          (sortOrders side params.orders).filter (fun o => decide (o.price = p)) =
            params.orders.filter (fun o => decide (o.price = p))) ∧
        ∀ a ∈ (sortOrders side params.orders).take k,
          ∀ b ∈ (sortOrders side params.orders).drop k,
            ¬ strictlyBetterPrice side b a := by
  obtain ⟨k, hk⟩ := baseFills_fst_take params.amount ZERO (sortOrders side params.orders)
  refine ⟨k, ?_, sortOrders_pairwise side params.orders,
    sortOrders_filter_price side params.orders, ?_⟩
  · rw [buildMarketOrders_eq]
    have hmm :
        (baseFills params.amount ZERO (sortOrders side params.orders)).1.map
            (fun p => p.1.rawOrder) =
          ((baseFills params.amount ZERO (sortOrders side params.orders)).1.map
            Prod.fst).map (fun o => o.rawOrder) := by
      rw [List.map_map]
      rfl
    rw [hmm, hk]
  · intro a ha b hb
    have hpw := sortOrders_pairwise side params.orders
    rw [← List.take_append_drop k (sortOrders side params.orders)] at hpw
    have hle := (List.pairwise_append.mp hpw).2.2 a ha b hb
    cases side with
    | Buy =>
      simp only [sortLe, decide_eq_true_eq] at hle
      simp only [strictlyBetterPrice, not_lt]
      exact hle
    | Sell =>
      simp only [sortLe, decide_eq_true_eq] at hle
      simp only [strictlyBetterPrice, not_lt]
      exact hle

/-- C3: the amounts recorded by the fill loop are, per visited candidate, the
base-unit fill amount replaced in place by
`unitsInTokenAmount(tokenAmountInUnitsToBigNumber(fill, makerTokenDecimals) * price,
takerTokenDecimals)` when the side is Buy — with the decimals looked up from
the order's maker and taker asset encodings — and the unconverted base-unit
fill amount when the side is Sell. -/
theorem marketLoop_buy_conversion (side : OrderSide) (decimalsOf : Nat → Nat)
    (amount f : ℚ) (os : List UIOrder) :
    (marketLoop side decimalsOf amount f os).2.1 =
      (baseFills amount f os).1.map
        (fun p => if side = OrderSide.Buy then buyConvert decimalsOf p.1 p.2 else p.2) := by
  rw [marketLoop_eq_baseFills]

/-- C4: whenever the candidates' total availability falls strictly short of
the requested amount, `buildMarketOrders` reports `canBeFilled = false` and
the plan includes every candidate — the sorted sequence is a permutation of
the input and every sorted candidate is selected — with its full availability
as the pre-conversion fill amount. -/
theorem buildMarketOrders_exhaustion (side : OrderSide)
    (params : BuildMarketOrderParams) (decimalsOf : Nat → Nat)
    (hpos : ∀ o ∈ params.orders, 0 ≤ availableOf o)
    (hsum : (params.orders.map availableOf).sum < params.amount) :
    (buildMarketOrders params side decimalsOf).2.2 = false ∧
      (baseFills params.amount ZERO (sortOrders side params.orders)).1 =
        (sortOrders side params.orders).map (fun o => (o, availableOf o)) ∧
      (buildMarketOrders params side decimalsOf).1 =
        (sortOrders side params.orders).map (fun o => o.rawOrder) ∧
      (sortOrders side params.orders).Perm params.orders := by
  have hperm := sortOrders_perm side params.orders
  have hpos' : ∀ o ∈ sortOrders side params.orders, 0 ≤ availableOf o :=
    fun o ho => hpos o (hperm.mem_iff.mp ho)
  have hsums : ((sortOrders side params.orders).map availableOf).sum =
      (params.orders.map availableOf).sum :=
    (hperm.map availableOf).sum_eq
  have hsum' : ZERO + ((sortOrders side params.orders).map availableOf).sum <
      params.amount := by
    rw [hsums]
    simpa [ZERO] using hsum
  obtain ⟨hfst, hsnd⟩ :=
    baseFills_exhaust params.amount ZERO (sortOrders side params.orders) hpos' hsum'
  refine ⟨?_, hfst, ?_, hperm⟩
  · rw [buildMarketOrders_fullyFilled]
    refine decide_eq_false ?_
    rw [hsnd]
    exact ne_of_lt hsum'
  · rw [buildMarketOrders_eq]
    rw [hfst, List.map_map]
    rfl

/-- C4 witness: the exhaustion theorem instantiated at the spec's Sell-side
scenario — requested amount 50 against candidates whose availabilities are
20 and 10. -/
theorem buildMarketOrders_exhaustion_witness :
    (∀ o ∈ sampleParamsShort.orders, 0 ≤ availableOf o) ∧
      (sampleParamsShort.orders.map availableOf).sum < sampleParamsShort.amount ∧
      ((buildMarketOrders sampleParamsShort OrderSide.Sell sampleDecimals).2.2 = false ∧
        (baseFills sampleParamsShort.amount ZERO
            (sortOrders OrderSide.Sell sampleParamsShort.orders)).1 =
          (sortOrders OrderSide.Sell sampleParamsShort.orders).map
            (fun o => (o, availableOf o)) ∧
        (buildMarketOrders sampleParamsShort OrderSide.Sell sampleDecimals).1 =
          (sortOrders OrderSide.Sell sampleParamsShort.orders).map (fun o => o.rawOrder) ∧
        (sortOrders OrderSide.Sell sampleParamsShort.orders).Perm
          sampleParamsShort.orders) := by
  have h1 : ∀ o ∈ sampleParamsShort.orders, 0 ≤ availableOf o := by
    norm_num [sampleParamsShort, List.forall_mem_cons, availableOf, sampleDear, sampleSmall]
  have h2 : (sampleParamsShort.orders.map availableOf).sum < sampleParamsShort.amount := by
    norm_num [sampleParamsShort, availableOf, sampleDear, sampleSmall]
  exact ⟨h1, h2,
    buildMarketOrders_exhaustion OrderSide.Sell sampleParamsShort sampleDecimals h1 h2⟩

/-- C5 counterexample: `Array.prototype.sort` sorts the caller's array in
place, so on a Buy call whose candidates arrive dear-first the caller's
sequence is reordered: the claim that the candidates sequence is unchanged
fails at this concrete input. -/
theorem buildMarketOrders_mutates_input :
    ¬ buildMarketOrdersFinalOrders sampleParams OrderSide.Buy = sampleParams.orders := by
  decide

/-- C5 amended: after a call the caller's candidates array holds the same
candidates with every field unchanged — a permutation of the input — but
reordered into the stable price-sorted order of the side's comparator; and
every order in the returned plan is the `rawOrder` value of one of the
caller's candidates. -/
theorem buildMarketOrders_frame (side : OrderSide) (params : BuildMarketOrderParams) :
    (buildMarketOrdersFinalOrders params side).Perm params.orders ∧
      (buildMarketOrdersFinalOrders params side).Pairwise
        (fun a b => sortLe side a b = true) ∧
      ∀ (decimalsOf : Nat → Nat), ∀ o ∈ (buildMarketOrders params side decimalsOf).1,
        ∃ c ∈ params.orders, o = c.rawOrder := by
  refine ⟨sortOrders_perm side params.orders, sortOrders_pairwise side params.orders, ?_⟩
  intro decimalsOf o ho
  rw [buildMarketOrders_eq] at ho
  obtain ⟨p, hp, rfl⟩ := List.mem_map.mp ho
  have hp1 : p.1 ∈ (baseFills params.amount ZERO (sortOrders side params.orders)).1.map
      Prod.fst := List.mem_map_of_mem Prod.fst hp
  obtain ⟨k, hk⟩ := baseFills_fst_take params.amount ZERO (sortOrders side params.orders)
  rw [hk] at hp1
  have hmem : p.1 ∈ sortOrders side params.orders :=
    List.mem_of_mem_take hp1
  exact ⟨p.1, (sortOrders_perm side params.orders).mem_iff.mp hmem, rfl⟩

/-- C6: the protocol fee estimate is exactly
`orderCount × PROTOCOL_FEE_MULTIPLIER × gasPrice` in exact rational
arithmetic; moreover the JavaScript number product
`orders.length * PROTOCOL_FEE_MULTIPLIER` is drift-free because for every
representable array length (below `2^32`) the product stays below `2^53`. -/
theorem calculateWorstCaseProtocolFee_exact (orders : List SignedOrder) (gasPrice : ℚ) :
    calculateWorstCaseProtocolFee orders gasPrice =
        (orders.length : ℚ) * (PROTOCOL_FEE_MULTIPLIER : ℚ) * gasPrice ∧
      ∀ n : Nat, n < 2 ^ 32 → n * PROTOCOL_FEE_MULTIPLIER < 2 ^ 53 := by
  constructor
  · simp only [calculateWorstCaseProtocolFee]
    push_cast
    ring
  · intro n hn
    simp only [PROTOCOL_FEE_MULTIPLIER]
    norm_num at hn ⊢
    omega

/-- C7: for every side the valuator fails (returns the InvalidArgument error)
exactly when the two parallel arrays have different lengths, and on two empty
arrays it returns zero. -/
theorem sumTakerAssetFillableOrders_guard (side : OrderSide)
    (ordersToFill : List SignedOrder) (amounts : List ℚ) :
    ((∃ e, sumTakerAssetFillableOrders side ordersToFill amounts = Except.error e) ↔
        ordersToFill.length ≠ amounts.length) ∧
      sumTakerAssetFillableOrders side [] [] = Except.ok 0 := by
  constructor
  · constructor
    · rintro ⟨e, he⟩
      by_contra hlen
      unfold sumTakerAssetFillableOrders at he
      rw [if_neg (not_ne_iff.mpr hlen)] at he
      by_cases h0 : ordersToFill.length = 0
      · rw [if_pos h0] at he
        exact Except.noConfusion he
      · rw [if_neg h0] at he
        exact Except.noConfusion he
    · intro hlen
      refine ⟨"ordersToFill and amount array lengths must be the same.", ?_⟩
      unfold sumTakerAssetFillableOrders
      rw [if_pos hlen]
  · rfl

/-- C8: for every side, an empty candidate list yields the empty plan with
`canBeFilled` true exactly when the requested amount is zero, and a zero
requested amount yields the empty plan with `canBeFilled = true` for every
candidate list. -/
theorem buildMarketOrders_edge_cases (side : OrderSide) (decimalsOf : Nat → Nat) :
    (∀ amount : ℚ,
        buildMarketOrders ⟨amount, []⟩ side decimalsOf =
          ([], [], decide (amount = 0))) ∧
      ∀ orders : List UIOrder,
        buildMarketOrders ⟨0, orders⟩ side decimalsOf = ([], [], true) := by
  constructor
  · intro amount
    simp [buildMarketOrders, sortOrders, stableSortBy, marketLoop, ZERO, eq_comm]
  · intro orders
    simp only [buildMarketOrders]
    rw [marketLoop_of_not_lt side decimalsOf (by simp [ZERO])]
    simp [ZERO]

/-- C9: on the Buy side the valuator returns exactly the plain sum of the
fill amounts whenever the array lengths agree — a value independent of every
field of the orders, in particular well-defined for orders whose
`takerAssetAmount` is zero, since the Sell-side division is never
evaluated. -/
theorem sumTakerAssetFillableOrders_buy (ordersToFill : List SignedOrder)
    (amounts : List ℚ) (hlen : ordersToFill.length = amounts.length) :
    sumTakerAssetFillableOrders OrderSide.Buy ordersToFill amounts =
      Except.ok amounts.sum := by
  unfold sumTakerAssetFillableOrders
  rw [if_neg (not_ne_iff.mpr hlen)]
  by_cases h0 : ordersToFill.length = 0
  · rw [if_pos h0]
    have ha : amounts = [] := List.eq_nil_of_length_eq_zero (hlen ▸ h0)
    subst ha
    simp [ZERO]
  · rw [if_neg h0]
    congr 1
    simp only [reduceIte, mul_one]
    rw [foldl_add_map (fun p : Nat × SignedOrder => amounts.getD p.1 0)]
    have hmm : ordersToFill.enum.map (fun p => amounts.getD p.1 0) =
        (ordersToFill.enum.map Prod.fst).map (fun i => amounts.getD i 0) := by
      rw [List.map_map]
      rfl
    rw [hmm, List.enum_map_fst, hlen, range_map_getD]
    simp [ZERO]

/-- C9 witness: the Buy-side valuation of a single order whose
`takerAssetAmount` is zero, against the fill amount 5. -/
theorem sumTakerAssetFillableOrders_buy_witness :
    [sampleRawZeroTaker].length = [(5 : ℚ)].length ∧
      sumTakerAssetFillableOrders OrderSide.Buy [sampleRawZeroTaker] [(5 : ℚ)] =
        Except.ok ([(5 : ℚ)].sum) :=
  ⟨rfl, sumTakerAssetFillableOrders_buy [sampleRawZeroTaker] [(5 : ℚ)] rfl⟩

/-- C10: the auction classifier returns `false` for every order, regardless
of any field of its input. -/
theorem isDutchAuction_const_false (order : SignedOrder) :
    isDutchAuction order = false :=
  rfl

end Orders
